import Mathlib

/-!
Verification of the Hough spiral cleaning pipeline
(`src/HoughSpiralCleaner.cpp` of ATTPC/libattpc-cleaning).

The C++ code works on IEEE doubles and Eigen arrays.  Modelling choices:

* Doubles appearing where IEEE special values matter (the arc-length
  transform, the peak-centroid division) are modelled by the type `D`
  below: a real number, positive or negative infinity, or NaN, with the
  IEEE propagation rules for the operations the code performs.  Signed
  zero is not modelled; no claim depends on it.
* Doubles inside `classifyPoints` are modelled by real numbers, with the
  stored per-point distances in `EReal` (the initial value is the double
  `+inf`).  The only divergence from IEEE there is `houghLineFunc` when
  `sin theta = 0` (real division is totalised); the claims about
  `classifyPoints` either assume `sin theta ≠ 0` or use inputs with
  `sin theta = 1`.
* `Eigen::Index` values are modelled by `ℤ` (labels, bin indices) or by
  `ℕ` where the code keeps them non-negative.
* The per-line counter array `pointsPerLine` of `classifyPoints` is
  modelled as a total map `ℤ → ℤ`, zero everywhere at the start, so that
  the source's unguarded `--pointsPerLine(oldLineIdx)` at `oldLineIdx = -1`
  (an out-of-range write in C++) becomes a visible write to the phantom
  cell at index `-1`.
-/

/-- A double-precision value as the embedded code needs it: NaN, one of the
two infinities, or a finite real. -/
inductive D where
  | nan : D
  | pinf : D
  | ninf : D
  | fin : ℝ → D

/-- IEEE division on `D`.  `0/0` gives NaN, `a/0` gives a signed infinity,
NaN propagates.  (Signed zero is not modelled: a finite numerator over an
infinite denominator gives `+0`, and the sign of an infinite result over a
zero denominator uses the numerator's sign only.) -/
noncomputable def D.div : D → D → D
  | D.nan, _ => D.nan
  | _, D.nan => D.nan
  | D.fin a, D.fin b =>
      if b = 0 then (if a = 0 then D.nan else if 0 < a then D.pinf else D.ninf)
      else D.fin (a / b)
  | D.fin _, D.pinf => D.fin 0
  | D.fin _, D.ninf => D.fin 0
  | D.pinf, D.pinf => D.nan
  | D.pinf, D.ninf => D.nan
  | D.ninf, D.pinf => D.nan
  | D.ninf, D.ninf => D.nan
  | D.pinf, D.fin b => if 0 ≤ b then D.pinf else D.ninf
  | D.ninf, D.fin b => if 0 ≤ b then D.ninf else D.pinf

/-- IEEE multiplication on `D` (`inf × 0` is NaN, NaN propagates). -/
noncomputable def D.mul : D → D → D
  | D.nan, _ => D.nan
  | _, D.nan => D.nan
  | D.fin a, D.fin b => D.fin (a * b)
  | D.pinf, D.pinf => D.pinf
  | D.pinf, D.ninf => D.ninf
  | D.ninf, D.pinf => D.ninf
  | D.ninf, D.ninf => D.pinf
  | D.pinf, D.fin b => if b = 0 then D.nan else if 0 < b then D.pinf else D.ninf
  | D.ninf, D.fin b => if b = 0 then D.nan else if 0 < b then D.ninf else D.pinf
  | D.fin a, D.pinf => if a = 0 then D.nan else if 0 < a then D.pinf else D.ninf
  | D.fin a, D.ninf => if a = 0 then D.nan else if 0 < a then D.ninf else D.pinf

/-- `std::atan` on `D`: NaN propagates, the infinities map to `±π/2`. -/
noncomputable def D.atan : D → D
  | D.nan => D.nan
  | D.pinf => D.fin (Real.pi / 2)
  | D.ninf => D.fin (-(Real.pi / 2))
  | D.fin x => D.fin (Real.arctan x)

/-- The arc length the source computes for one point of the cloud
(`HoughSpiralCleaner::findArcLength`, lines 27-35): with offsets
`xOff = x - cx`, `yOff = y - cy` it is
`sqrt(xOff² + yOff²) * atan(yOff / xOff)`, evaluated in doubles. -/
noncomputable def arcLengthPoint (cx cy x y : ℝ) : D :=
  let xOff := x - cx
  let yOff := y - cy
  let rad := D.fin (Real.sqrt (xOff ^ 2 + yOff ^ 2))
  let theta := D.atan (D.div (D.fin yOff) (D.fin xOff))
  D.mul rad theta

/-- `HoughSpiralCleaner::findArcLength`: the componentwise arc-length array
for a cloud of `(x, y)` points and a centre `(cx, cy)`. -/
noncomputable def findArcLength (xy : List (ℝ × ℝ)) (cx cy : ℝ) : List D :=
  xy.map (fun p => arcLengthPoint cx cy p.1 p.2)

/-- `houghLineFunc` (anonymous namespace, lines 8-12): the arc length of the
Hough line with parameters `(rad, theta)` at depth `x`, namely
`(rad - x cos theta) / sin theta`. -/
noncomputable def houghLineFunc (x rad theta : ℝ) : ℝ :=
  (rad - x * Real.cos theta) / Real.sin theta

/-- The per-point distance array the classifier computes for one line
(line 116): `|houghLineFunc(z, rad, maxAngle) - arclen|` for each point. -/
noncomputable def lineDists (zs arclens : List ℝ) (rad theta : ℝ) : List ℝ :=
  (zs.zip arclens).map (fun p => |houghLineFunc p.1 rad theta - p.2|)

/-- The inner point loop of `classifyPoints` (lines 120-132) for one line
`lineIdx`, walking the per-point distance list alongside the current labels
and best distances.  On an improvement the counter map is updated exactly as
the source does: decrement at the old label (whatever it is, `-1` included),
then increment at `lineIdx`, then store the new label and distance. -/
noncomputable def processPoints (lineIdx : ℤ) :
    List ℝ → List ℤ → List EReal → (ℤ → ℤ) → List ℤ × List EReal × (ℤ → ℤ)
  | newDist :: nds, oldLine :: lbs, oldDist :: ds, counts =>
      if (newDist : EReal) < oldDist then
        let counts1 : ℤ → ℤ := fun m => if m = oldLine then counts m - 1 else counts m
        let counts2 : ℤ → ℤ := fun m => if m = lineIdx then counts1 m + 1 else counts1 m
        let rest := processPoints lineIdx nds lbs ds counts2
        (lineIdx :: rest.1, (newDist : EReal) :: rest.2.1, rest.2.2)
      else
        let rest := processPoints lineIdx nds lbs ds counts
        (oldLine :: rest.1, oldDist :: rest.2.1, rest.2.2)
  | _, lbs, ds, counts => (lbs, ds, counts)

/-- The outer line loop of `classifyPoints` (lines 114-133): process the
candidate radii in order, numbering them from `lineIdx` upwards. -/
noncomputable def runLines (theta : ℝ) (zs arclens : List ℝ) :
    List ℝ → ℤ → List ℤ × List EReal × (ℤ → ℤ) → List ℤ × List EReal × (ℤ → ℤ)
  | [], _, st => st
  | rad :: rads, lineIdx, (lbs, ds, counts) =>
      runLines theta zs arclens rads (lineIdx + 1)
        (processPoints lineIdx (lineDists zs arclens rad theta) lbs ds counts)

/-- State of `classifyPoints` after the line-processing loop and before the
elimination loop: labels, best distances, and the `pointsPerLine` map.
Labels start at `-1` and distances at `+inf`
(`HoughSpiralCleanerResult::HoughSpiralCleanerResult`, lines 99-102);
the counters start at zero (line 112). -/
noncomputable def classifyLoop (xyz : List (ℝ × ℝ × ℝ)) (arclens : List ℝ)
    (maxAngle : ℝ) (radii : List ℝ) : List ℤ × List EReal × (ℤ → ℤ) :=
  let numPts := xyz.length
  runLines maxAngle (xyz.map (fun p => p.2.2)) arclens radii 0
    (List.replicate numPts (-1), List.replicate numPts (⊤ : EReal), fun _ => 0)

/-- One iteration of the inner elimination loop (lines 138-143): if point `i`
carries the eliminated label, reset that label to `-1` and overwrite the
whole distance array with `+inf` (the source assigns the scalar infinity to
the array `result.distancesToNearestLine`, not to entry `i` of it). -/
noncomputable def elimStep (lineIdx : ℤ) (st : List ℤ × List EReal) (i : ℕ) :
    List ℤ × List EReal :=
  if st.1.getD i 0 = lineIdx then
    (st.1.set i (-1), st.2.map (fun _ => (⊤ : EReal)))
  else st

/-- The elimination loop of `classifyPoints` (lines 136-145): for every line
whose counter is below `minPointsPerLine`, run `elimStep` over all points. -/
noncomputable def eliminateLines (minPointsPerLine : ℤ) (counts : ℤ → ℤ)
    (numLines numPts : ℕ) (labels : List ℤ) (dists : List EReal) :
    List ℤ × List EReal :=
  (List.range numLines).foldl
    (fun st (ℓ : ℕ) =>
      if counts (ℓ : ℤ) < minPointsPerLine then
        (List.range numPts).foldl (elimStep (ℓ : ℤ)) st
      else st)
    (labels, dists)

/-- The result type of `classifyPoints`: per-point labels and distances. -/
structure HoughSpiralCleanerResult where
  labels : List ℤ
  distancesToNearestLine : List EReal

/-- `HoughSpiralCleaner::classifyPoints` (lines 104-148): the line loop
followed by the elimination loop.  `minPointsPerLine` is the configuration
member the method reads. -/
noncomputable def classifyPoints (minPointsPerLine : ℤ) (xyz : List (ℝ × ℝ × ℝ))
    (arclens : List ℝ) (maxAngle : ℝ) (radii : List ℝ) : HoughSpiralCleanerResult :=
  let st := classifyLoop xyz arclens maxAngle radii
  let res := eliminateLines minPointsPerLine st.2.2 radii.length xyz.length st.1 st.2.1
  ⟨res.1, res.2⟩

/-- Whether bin `i` of the slice is a (non-strict) local maximum: its value is
at least as large as each existing neighbour's. -/
def isLocalMax (slice : List ℕ) (i : ℕ) : Bool :=
  (decide (i = 0) || decide (slice.getD (i - 1) 0 ≤ slice.getD i 0)) &&
    (decide (i + 1 = slice.length) || decide (slice.getD (i + 1) 0 ≤ slice.getD i 0))

/-- Modelled from the spec: `findPeakLocations` is declared elsewhere in the
repository and its definition is not under `src/`; section 4.4 of the spec
describes it as finding the `P` largest local-maximum bin positions of the
slice, ties broken by a stable ordering by value descending, returning fewer
when fewer maxima exist.  Local maxima are taken non-strictly (a plateau bin
counts), and the stable descending sort is an insertion sort. -/
def findPeakLocations (slice : List ℕ) (P : ℕ) : List ℕ :=
  let maxima := (List.range slice.length).filter (fun i => isLocalMax slice i)
  (List.insertionSort (fun a b => slice.getD b 0 ≤ slice.getD a 0) maxima).take P

/-- First window index used by `findPeakRadiusBins` (line 86):
`max(pkIdx - peakWidth, 0)`. -/
def windowFirstPt (pkIdx peakWidth : ℤ) : ℤ := max (pkIdx - peakWidth) 0

/-- Last window index used by `findPeakRadiusBins` (line 87):
`max(pkIdx + peakWidth, houghSlice.rows() - 1)` — `max`, as in the source. -/
def windowLastPt (pkIdx peakWidth sliceLen : ℤ) : ℤ :=
  max (pkIdx + peakWidth) (sliceLen - 1)

/-- The inclusive integer range `firstPt, firstPt+1, ..., lastPt` (the
`LinSpaced(lastPt - firstPt + 1, firstPt, lastPt)` positions vector). -/
def windowIdxs (firstPt lastPt : ℤ) : List ℤ :=
  (List.range (lastPt - firstPt + 1).toNat).map (fun k => firstPt + (k : ℤ))

/-- The centre-of-gravity computation of the loop body of
`findPeakRadiusBins` (lines 85-93) for one peak index: positions
`firstPt..lastPt`, values the slice entries there cast to double, result
`positions.dot(values) / values.sum()` in doubles (so an all-zero window
gives `0/0 = NaN`).  A window index beyond the slice (possible because
`windowLastPt` takes a `max`) reads as `0` here; in C++ that read is out of
range.  No claim is settled on such an input. -/
noncomputable def peakCtrOfGrav (peakWidth : ℤ) (slice : List ℕ) (pkIdx : ℤ) : D :=
  let firstPt := windowFirstPt pkIdx peakWidth
  let lastPt := windowLastPt pkIdx peakWidth (slice.length : ℤ)
  let idxs := windowIdxs firstPt lastPt
  let dot := (idxs.map (fun (j : ℤ) => (j : ℝ) * (slice.getD j.toNat 0 : ℝ))).sum
  let total := (idxs.map (fun (j : ℤ) => (slice.getD j.toNat 0 : ℝ))).sum
  D.div (D.fin dot) (D.fin total)

/-- `HoughSpiralCleaner::findPeakRadiusBins` (lines 81-97): one centroid per
found peak, in the order the peaks were found; the target peak count is the
fixed `2` of line 82. -/
noncomputable def findPeakRadiusBins (peakWidth : ℤ) (houghSlice : List ℕ) : List D :=
  (findPeakLocations houghSlice 2).map (fun (p : ℕ) => peakCtrOfGrav peakWidth houghSlice (p : ℤ))

/-- The centroid over the window the claim describes, with upper bound
`min(p + peakWidth, B - 1)`; written from the claim's words, for comparison
with `peakCtrOfGrav`. -/
noncomputable def claimWindowCentroid (peakWidth : ℤ) (slice : List ℕ) (pkIdx : ℤ) : D :=
  let firstPt := max (pkIdx - peakWidth) 0
  let lastPt := min (pkIdx + peakWidth) ((slice.length : ℤ) - 1)
  let idxs := windowIdxs firstPt lastPt
  let dot := (idxs.map (fun (j : ℤ) => (j : ℝ) * (slice.getD j.toNat 0 : ℝ))).sum
  let total := (idxs.map (fun (j : ℤ) => (slice.getD j.toNat 0 : ℝ))).sum
  D.div (D.fin dot) (D.fin total)

/-- All `(angleBin, radiusBin)` pairs of a `B × B` Hough space, in the order
the nested loops of `findMaxAngleBin` emit them (lines 51-55). -/
def allBins (B : ℕ) : List (ℕ × ℕ) :=
  (List.range B).flatMap (fun i => (List.range B).map (fun j => (i, j)))

/-- `HoughSpiralCleaner::findMaxAngleBin` (lines 47-68).  The Hough space is
given through its interface: the bin count and the accumulator value at each
bin (accumulated weights are non-negative counts).  The pairs are sorted
ascending by accumulator value (the source's `std::sort` fixes no order on
ties; an insertion sort stands in for it), the last `K = numAngleBinsToReduce`
entries are summed componentwise, divided by `K` (integer division; the
`Eigen::floor` on the integer quotient is the identity), and the angle
component is returned. -/
def findMaxAngleBin (getValueAtBin : ℕ → ℕ → ℕ) (numBins K : ℕ) : ℕ :=
  let indices := allBins numBins
  let sorted := List.insertionSort
    (fun a b => getValueAtBin a.1 a.2 ≤ getValueAtBin b.1 b.2) indices
  let lastK := sorted.drop (sorted.length - K)
  let binTotal := lastK.foldl (fun acc p => (acc.1 + p.1, acc.2 + p.2)) ((0, 0) : ℕ × ℕ)
  binTotal.1 / K

/-- The perpendicular distance in `(depth, arc-length)` space from the point
`(z, L)` to the line `depth * cos theta + arcLength * sin theta = rad`,
written from the claim's words (`(cos theta, sin theta)` is a unit normal of
that line). -/
noncomputable def perpDistSpec (z L theta rad : ℝ) : ℝ :=
  |z * Real.cos theta + L * Real.sin theta - rad|

/-- C2: at `maxAngle = π/2` (so the line's arc length at depth `z` is just the
radius), three points with arc lengths `0, 0, 5` and candidate radii `[0, 5]`
give two points on line `0` and one on line `1`; with `minPointsPerLine = 2`
line `1` is eliminated.  The source then assigns infinity to the whole
distance array, so the surviving points keep label `0` but lose their finite
distances: the claim says their distances are left unchanged. -/
theorem eliminate_overwrites_all_distances :
    (classifyPoints 2 [(0,0,0), (0,0,0), (0,0,0)] [0, 0, 5] (Real.pi/2) [0, 5]).labels
      = [0, 0, -1] ∧
    (classifyPoints 2 [(0,0,0), (0,0,0), (0,0,0)] [0, 0, 5] (Real.pi/2) [0, 5]).distancesToNearestLine
      = [⊤, ⊤, ⊤] := by
  norm_num [classifyPoints, classifyLoop, runLines, processPoints, lineDists,
    houghLineFunc, Real.cos_pi_div_two, Real.sin_pi_div_two, EReal.coe_lt_top,
    eliminateLines, elimStep, List.range_succ, abs_of_nonneg, List.replicate_succ]

/-- C4: two points, one candidate line, `maxAngle = π/2`.  Both points start
at label `-1`; each first assignment still executes
`--pointsPerLine(oldLineIdx)` with `oldLineIdx = -1`, so the phantom cell at
index `-1` of the counter map ends at `-2` (in C++ this is an out-of-range
write).  The claim says no decrement happens for a previously unassigned
point.  The in-range cell `0` ends at `2`, the number of points labelled `0`. -/
theorem classify_decrements_unassigned_counter :
    (classifyLoop [(0,0,0), (0,0,0)] [0, 1] (Real.pi/2) [0]).2.2 (-1) = -2 ∧
    (classifyLoop [(0,0,0), (0,0,0)] [0, 1] (Real.pi/2) [0]).2.2 0 = 2 ∧
    (classifyLoop [(0,0,0), (0,0,0)] [0, 1] (Real.pi/2) [0]).1 = [0, 0] := by
  have h1top : (1 : EReal) < ⊤ := by
    rw [← EReal.coe_one]
    exact EReal.coe_lt_top 1
  norm_num [classifyLoop, runLines, processPoints, lineDists, houghLineFunc,
    Real.cos_pi_div_two, Real.sin_pi_div_two, EReal.coe_lt_top, abs_of_nonneg,
    h1top, List.replicate_succ]

/-- C10: a single point, a single candidate line, `maxAngle = π/2`.  The
point's first assignment reads and writes the counter array at index `-1`
(its label is still the unassigned sentinel), which is outside
`[0, numLinesFound)`: the phantom cell at `-1` moves from `0` to `-1`. -/
theorem classify_counter_write_at_neg_one :
    (classifyLoop [(0,0,0)] [0] (Real.pi/2) [0]).2.2 (-1) = -1 ∧
    (classifyLoop [(0,0,0)] [0] (Real.pi/2) [0]).1 = [0] := by
  norm_num [classifyLoop, runLines, processPoints, lineDists, houghLineFunc,
    Real.cos_pi_div_two, Real.sin_pi_div_two, EReal.coe_lt_top, abs_of_nonneg,
    List.replicate_succ]

/-- C5 counterexample: a cloud holding exactly the spiral centre.  Both
offsets are `0`, the angle is `atan(0/0) = NaN`, and the arc length
`0 * NaN = NaN` is returned in the array: the transform neither fails nor
excludes the point, contradicting the claim. -/
theorem findArcLength_silent_nan_at_center_point :
    findArcLength [(5, 7)] 5 7 = [D.nan] := by
  norm_num [findArcLength, arcLengthPoint, D.div, D.atan, D.mul]

/-- C5 amended: for every input point whose two offsets from the centre are
both zero, `findArcLength` silently returns NaN at that point's index (the
output stays index-aligned with the input; nothing fails and nothing is
excluded). -/
theorem findArcLength_zero_offset_is_nan (xy : List (ℝ × ℝ)) (cx cy : ℝ) (i : ℕ)
    (hi : i < xy.length)
    (hx : (xy.getD i (0, 0)).1 - cx = 0) (hy : (xy.getD i (0, 0)).2 - cy = 0) :
    (findArcLength xy cx cy).length = xy.length ∧
    (findArcLength xy cx cy).getD i (D.fin 0) = D.nan := by
  constructor
  · simp [findArcLength]
  · rw [List.getD_eq_getElem?_getD]
    rw [findArcLength, List.getElem?_map]
    rw [List.getElem?_eq_getElem hi]
    simp only [Option.map_some', Option.getD_some]
    rw [List.getD_eq_getElem?_getD, List.getElem?_eq_getElem hi] at hx hy
    simp only [Option.getD_some] at hx hy
    simp [arcLengthPoint, hx, hy, D.div, D.atan, D.mul]

/-- C5 amended, witnessed at the counterexample input. -/
theorem findArcLength_zero_offset_is_nan_witness :
    0 < ([((5:ℝ), (7:ℝ))] : List (ℝ × ℝ)).length ∧
    (([((5:ℝ), (7:ℝ))] : List (ℝ × ℝ)).getD 0 (0, 0)).1 - 5 = 0 ∧
    (([((5:ℝ), (7:ℝ))] : List (ℝ × ℝ)).getD 0 (0, 0)).2 - 7 = 0 ∧
    ((findArcLength [(5, 7)] 5 7).length = 1 ∧
      (findArcLength [(5, 7)] 5 7).getD 0 (D.fin 0) = D.nan) :=
  ⟨by norm_num, by norm_num, by norm_num,
    findArcLength_zero_offset_is_nan [(5, 7)] 5 7 0 (by norm_num) (by norm_num) (by norm_num)⟩

/-- C9: the ratio-based arctangent makes the transform invariant under
reflecting a point's offset through the centre: two points of the cloud whose
offsets are `(x, y)` and `(-x, -y)` with `x ≠ 0` get the same arc length. -/
theorem findArcLength_reflection_invariant (xy : List (ℝ × ℝ)) (cx cy : ℝ)
    (i j : ℕ) (hi : i < xy.length) (hj : j < xy.length)
    (hx0 : (xy.getD i (0, 0)).1 - cx ≠ 0)
    (hx : (xy.getD j (0, 0)).1 - cx = -((xy.getD i (0, 0)).1 - cx))
    (hy : (xy.getD j (0, 0)).2 - cy = -((xy.getD i (0, 0)).2 - cy)) :
    (findArcLength xy cx cy).getD j (D.fin 0)
      = (findArcLength xy cx cy).getD i (D.fin 0) := by
  rw [List.getD_eq_getElem?_getD, List.getD_eq_getElem?_getD, findArcLength,
    List.getElem?_map, List.getElem?_map,
    List.getElem?_eq_getElem hi, List.getElem?_eq_getElem hj]
  simp only [Option.map_some', Option.getD_some]
  simp only [List.getD_eq_getElem?_getD, List.getElem?_eq_getElem hi,
    List.getElem?_eq_getElem hj, Option.getD_some] at hx0 hx hy
  simp only [arcLengthPoint, hx, hy]
  have hneg : ∀ a b : ℝ, b ≠ 0 → D.div (D.fin (-a)) (D.fin (-b)) = D.div (D.fin a) (D.fin b) := by
    intro a b hb
    simp [D.div, hb, neg_eq_zero, neg_div_neg_eq]
  rw [hneg _ _ hx0]
  ring_nf

/-- C9, witnessed on the cloud `[(1, 0), (-1, 0)]` around the origin. -/
theorem findArcLength_reflection_invariant_witness :
    ((1:ℝ) - 0 ≠ 0) ∧
    (findArcLength [(1, 0), (-1, 0)] 0 0).getD 1 (D.fin 0)
      = (findArcLength [(1, 0), (-1, 0)] 0 0).getD 0 (D.fin 0) :=
  ⟨by norm_num,
    findArcLength_reflection_invariant [(1, 0), (-1, 0)] 0 0 0 1
      (by norm_num) (by norm_num) (by norm_num) (by norm_num) (by norm_num)⟩

lemma allBins_length (B : ℕ) : (allBins B).length = B * B := by
  rw [allBins, List.length_flatMap]
  have h : ∀ (l : List ℕ),
      (l.map (List.length ∘ fun i => (List.range B).map (fun j => (i, j)))).sum = l.length * B := by
    intro l
    induction l with
    | nil => simp
    | cons a l ih => simp [ih, Nat.succ_mul, Nat.add_comm]
  rw [h, List.length_range]

lemma allBins_fst_lt (B : ℕ) : ∀ p ∈ allBins B, p.1 < B := by
  intro p hp
  simp only [allBins, List.mem_flatMap, List.mem_map, List.mem_range] at hp
  obtain ⟨i, hi, j, hj, rfl⟩ := hp
  exact hi

lemma foldl_pair_fst (l : List (ℕ × ℕ)) :
    ∀ acc : ℕ × ℕ, (l.foldl (fun acc p => (acc.1 + p.1, acc.2 + p.2)) acc).1
      = acc.1 + (l.map Prod.fst).sum := by
  induction l with
  | nil => simp
  | cons a l ih => intro acc; simp [ih, Nat.add_assoc]

/-- C8: for a `B × B` Hough space and `1 ≤ K ≤ B²`, `findMaxAngleBin` — which
sorts all bin pairs ascending by accumulator value, sums the last `K`
componentwise, and floor-divides by `K` — returns an angle bin in `[0, B)`
(the lower bound is by type). -/
theorem findMaxAngleBin_lt_numBins (v : ℕ → ℕ → ℕ) (B K : ℕ)
    (hK : 1 ≤ K) (hKB : K ≤ B * B) : findMaxAngleBin v B K < B := by
  have hB : 1 ≤ B := by
    by_contra h
    push_neg at h
    interval_cases B
    simp at hKB
    omega
  rw [findMaxAngleBin]
  have hperm := List.perm_insertionSort
    (fun (a b : ℕ × ℕ) => v a.1 a.2 ≤ v b.1 b.2) (allBins B)
  have hlen : (List.insertionSort (fun (a b : ℕ × ℕ) => v a.1 a.2 ≤ v b.1 b.2) (allBins B)).length
      = B * B := by
    rw [hperm.length_eq, allBins_length]
  set sorted := List.insertionSort (fun (a b : ℕ × ℕ) => v a.1 a.2 ≤ v b.1 b.2) (allBins B) with hs
  have hdroplen : (sorted.drop (sorted.length - K)).length = K := by
    rw [List.length_drop, hlen]
    omega
  have hbound : ∀ p ∈ sorted.drop (sorted.length - K), p.1 ≤ B - 1 := by
    intro p hp
    have hmem : p ∈ allBins B := hperm.mem_iff.mp (List.mem_of_mem_drop hp)
    have := allBins_fst_lt B p hmem
    omega
  have hsum : ((sorted.drop (sorted.length - K)).map Prod.fst).sum ≤ K * (B - 1) := by
    have := List.sum_le_card_nsmul ((sorted.drop (sorted.length - K)).map Prod.fst) (B - 1)
      (by intro x hx; obtain ⟨p, hp, rfl⟩ := List.mem_map.mp hx; exact hbound p hp)
    rw [List.length_map, hdroplen, smul_eq_mul] at this
    exact this
  calc ((sorted.drop (sorted.length - K)).foldl (fun acc p => (acc.1 + p.1, acc.2 + p.2)) (0,0)).1 / K
      = (0 + ((sorted.drop (sorted.length - K)).map Prod.fst).sum) / K := by
        rw [foldl_pair_fst]
    _ ≤ (K * (B - 1)) / K := by
        apply Nat.div_le_div_right
        omega
    _ = B - 1 := Nat.mul_div_cancel_left _ (by omega)
    _ < B := by omega

/-- C8, witnessed on an all-zero `2 × 2` space with `K = 1`. -/
theorem findMaxAngleBin_lt_numBins_witness :
    1 ≤ 1 ∧ 1 ≤ 2 * 2 ∧ findMaxAngleBin (fun _ _ => 0) 2 1 < 2 :=
  ⟨by decide, by decide, findMaxAngleBin_lt_numBins (fun _ _ => 0) 2 1 (by decide) (by decide)⟩

/-- C3: on the slice `[1,5,1,0,0,0,0,0,2,0]` (length `B = 10`) with
`peakWidth = 1`, the peak at bin `1` is found, but the source's window upper
bound `max(pkIdx + peakWidth, B - 1)` stretches the window to bin `9`, so the
centroid is `23/9` instead of the claimed centroid `1` over the window
`[max(1-1,0), min(1+1,9)] = [0,2]`. -/
theorem peak_window_upper_bound_uses_max :
    findPeakLocations [1,5,1,0,0,0,0,0,2,0] 2 = [1, 8] ∧
    peakCtrOfGrav 1 [1,5,1,0,0,0,0,0,2,0] 1 = D.fin (23/9) ∧
    claimWindowCentroid 1 [1,5,1,0,0,0,0,0,2,0] 1 = D.fin 1 ∧
    (23 : ℝ)/9 ≠ 1 := by
  refine ⟨by decide, ?_, ?_, by norm_num⟩
  · have h : windowIdxs 0 9 = [0,1,2,3,4,5,6,7,8,9] := by decide
    norm_num [peakCtrOfGrav, windowFirstPt, windowLastPt, h, D.div,
      show Int.toNat 2 = 2 from rfl, show Int.toNat 3 = 3 from rfl,
      show Int.toNat 4 = 4 from rfl, show Int.toNat 5 = 5 from rfl,
      show Int.toNat 6 = 6 from rfl, show Int.toNat 7 = 7 from rfl,
      show Int.toNat 8 = 8 from rfl, show Int.toNat 9 = 9 from rfl]
  · have h : windowIdxs 0 2 = [0,1,2] := by decide
    norm_num [claimWindowCentroid, h, D.div, show Int.toNat 2 = 2 from rfl]

/-- C6 counterexample: on an all-zero slice of length 3, two plateau peaks
are found (under the spec-modelled peak locator), both centroid windows sum
to zero, and the returned list is `[NaN, NaN]`: nothing is excluded, and the
NaN from `0/0` is propagated silently. -/
theorem findPeakRadiusBins_all_zero_slice_returns_nans :
    findPeakRadiusBins 1 [0, 0, 0] = [D.nan, D.nan] := by
  have h : findPeakLocations [0,0,0] 2 = [0, 1] := by decide
  have h2 : windowIdxs 0 2 = [0,1,2] := by decide
  norm_num [findPeakRadiusBins, h, peakCtrOfGrav, windowFirstPt, windowLastPt,
    h2, D.div, show Int.toNat 2 = 2 from rfl]

lemma all_zero_of_sum_zero (l : List ℝ) (h : ∀ x ∈ l, 0 ≤ x) (hs : l.sum = 0) :
    ∀ x ∈ l, x = 0 := by
  induction l with
  | nil => simp
  | cons a l ih =>
    intro x hx
    have ha : 0 ≤ a := h a (List.mem_cons_self a l)
    have hl : 0 ≤ l.sum := List.sum_nonneg (fun y hy => h y (List.mem_cons_of_mem a hy))
    rw [List.sum_cons] at hs
    have ha0 : a = 0 := by linarith
    have hls : l.sum = 0 := by linarith
    rcases List.mem_cons.mp hx with rfl | hx'
    · exact ha0
    · exact ih (fun y hy => h y (List.mem_cons_of_mem a hy)) hls x hx'

lemma peakCtrOfGrav_eq_nan (peakWidth : ℤ) (slice : List ℕ) (p : ℤ)
    (hzero : ((windowIdxs (windowFirstPt p peakWidth)
        (windowLastPt p peakWidth (slice.length : ℤ))).map
        (fun (j : ℤ) => (slice.getD j.toNat 0 : ℝ))).sum = 0) :
    peakCtrOfGrav peakWidth slice p = D.nan := by
  have hvals : ∀ j ∈ windowIdxs (windowFirstPt p peakWidth)
      (windowLastPt p peakWidth (slice.length : ℤ)), ((slice.getD j.toNat 0 : ℝ)) = 0 := by
    intro j hj
    refine all_zero_of_sum_zero _ ?_ hzero _ (List.mem_map_of_mem _ hj)
    intro x hx
    obtain ⟨j', hj', rfl⟩ := List.mem_map.mp hx
    positivity
  have hdot : ((windowIdxs (windowFirstPt p peakWidth)
      (windowLastPt p peakWidth (slice.length : ℤ))).map
      (fun (j : ℤ) => (j : ℝ) * (slice.getD j.toNat 0 : ℝ))).sum = 0 := by
    refine List.sum_eq_zero ?_
    intro x hx
    obtain ⟨j, hj, rfl⟩ := List.mem_map.mp hx
    rw [hvals j hj, mul_zero]
  simp only [peakCtrOfGrav]
  rw [hdot, hzero]
  simp [D.div]

/-- C6 amended: a found peak whose centroid window has total value zero gets
the NaN centroid `0/0` and is still included in the returned list; the list
always has exactly one entry per found peak (no exclusion ever happens). -/
theorem findPeakRadiusBins_zero_window_gives_nan (peakWidth : ℤ) (slice : List ℕ)
    (p : ℕ) (hp : p ∈ findPeakLocations slice 2)
    (hzero : ((windowIdxs (windowFirstPt (p : ℤ) peakWidth)
        (windowLastPt (p : ℤ) peakWidth (slice.length : ℤ))).map
        (fun (j : ℤ) => (slice.getD j.toNat 0 : ℝ))).sum = 0) :
    (findPeakRadiusBins peakWidth slice).length = (findPeakLocations slice 2).length ∧
    D.nan ∈ findPeakRadiusBins peakWidth slice := by
  constructor
  · rw [findPeakRadiusBins, List.length_map]
  · rw [findPeakRadiusBins]
    refine List.mem_map.mpr ⟨p, hp, ?_⟩
    exact peakCtrOfGrav_eq_nan peakWidth slice (p : ℤ) hzero

/-- C6 amended, witnessed on the all-zero slice of length 3 at peak `0`. -/
theorem findPeakRadiusBins_zero_window_gives_nan_witness :
    (0 ∈ findPeakLocations [0, 0, 0] 2) ∧
    ((windowIdxs (windowFirstPt ((0 : ℕ) : ℤ) 1)
        (windowLastPt ((0 : ℕ) : ℤ) 1 (([0, 0, 0] : List ℕ).length : ℤ))).map
        (fun (j : ℤ) => (([0, 0, 0] : List ℕ).getD j.toNat 0 : ℝ))).sum = 0 ∧
    ((findPeakRadiusBins 1 [0, 0, 0]).length = (findPeakLocations [0, 0, 0] 2).length ∧
      D.nan ∈ findPeakRadiusBins 1 [0, 0, 0]) := by
  have h1 : (0 ∈ findPeakLocations [0, 0, 0] 2) := by decide
  have h2 : ((windowIdxs (windowFirstPt ((0 : ℕ) : ℤ) 1)
      (windowLastPt ((0 : ℕ) : ℤ) 1 (([0, 0, 0] : List ℕ).length : ℤ))).map
      (fun (j : ℤ) => (([0, 0, 0] : List ℕ).getD j.toNat 0 : ℝ))).sum = 0 := by
    have h : windowIdxs (windowFirstPt ((0 : ℕ) : ℤ) 1)
        (windowLastPt ((0 : ℕ) : ℤ) 1 (([0, 0, 0] : List ℕ).length : ℤ)) = [0, 1, 2] := by
      decide
    rw [h]
    norm_num [show Int.toNat 2 = 2 from rfl]
  exact ⟨h1, h2, findPeakRadiusBins_zero_window_gives_nan 1 [0, 0, 0] 0 h1 h2⟩

/-- C1 counterexample, at two concrete inputs.  First: the elimination input
of C2, where the surviving point keeps label `0` but its returned distance is
`+inf`, not finite.  Second: `maxAngle = π/4`, one point at depth `1` with
arc length `0` and one line of radius `0`; the returned distance is `1`
(the distance along the arc-length axis), while the perpendicular distance
in `(depth, arc-length)` space is `√2/2 ≠ 1`. -/
theorem classify_distance_not_perpendicular_and_not_finite :
    ((classifyPoints 2 [(0,0,0), (0,0,0), (0,0,0)] [0, 0, 5] (Real.pi/2) [0, 5]).labels.getD 0 (-1) = 0 ∧
      (classifyPoints 2 [(0,0,0), (0,0,0), (0,0,0)] [0, 0, 5] (Real.pi/2) [0, 5]).distancesToNearestLine.getD 0 0 = ⊤) ∧
    ((classifyPoints 1 [(0,0,1)] [0] (Real.pi/4) [0]).labels = [0] ∧
      (classifyPoints 1 [(0,0,1)] [0] (Real.pi/4) [0]).distancesToNearestLine = [((1:ℝ) : EReal)] ∧
      perpDistSpec 1 0 (Real.pi/4) 0 ≠ 1) := by
  have h2 : Real.sqrt 2 / 2 ≠ 0 := by
    have := Real.sqrt_pos.mpr (by norm_num : (0:ℝ) < 2)
    positivity
  have hval : (0 - 1 * (Real.sqrt 2 / 2)) / (Real.sqrt 2 / 2) = (-1 : ℝ) := by
    field_simp
    ring
  have hsq : Real.sqrt 2 ≠ 2 := by
    intro h
    have := Real.sq_sqrt (by norm_num : (0:ℝ) ≤ 2)
    rw [h] at this
    norm_num at this
  have h1top : (1 : EReal) < ⊤ := by
    rw [← EReal.coe_one]
    exact EReal.coe_lt_top 1
  refine ⟨⟨?_, ?_⟩, ?_, ?_, ?_⟩
  · norm_num [classifyPoints, classifyLoop, runLines, processPoints, lineDists,
      houghLineFunc, Real.cos_pi_div_two, Real.sin_pi_div_two, EReal.coe_lt_top,
      eliminateLines, elimStep, List.range_succ, abs_of_nonneg, List.replicate_succ]
  · norm_num [classifyPoints, classifyLoop, runLines, processPoints, lineDists,
      houghLineFunc, Real.cos_pi_div_two, Real.sin_pi_div_two, EReal.coe_lt_top,
      eliminateLines, elimStep, List.range_succ, abs_of_nonneg, List.replicate_succ]
  · norm_num [classifyPoints, classifyLoop, runLines, processPoints, lineDists,
      houghLineFunc, Real.cos_pi_div_four, Real.sin_pi_div_four, EReal.coe_lt_top,
      eliminateLines, elimStep, List.range_succ, hval, h1top, List.replicate_succ]
  · norm_num [classifyPoints, classifyLoop, runLines, processPoints, lineDists,
      houghLineFunc, Real.cos_pi_div_four, Real.sin_pi_div_four, EReal.coe_lt_top,
      eliminateLines, elimStep, List.range_succ, hval, h1top, List.replicate_succ]
  · simp only [perpDistSpec, Real.cos_pi_div_four, Real.sin_pi_div_four]
    rw [show (1:ℝ) * (Real.sqrt 2 / 2) + 0 * (Real.sqrt 2 / 2) - 0 = Real.sqrt 2 / 2 by ring]
    rw [abs_of_nonneg (by positivity)]
    intro h
    apply hsq
    field_simp at h
    linarith

lemma processPoints_length (lineIdx : ℤ) (nds : List ℝ) :
    ∀ (lbs : List ℤ) (ds : List EReal) (c : ℤ → ℤ),
      (processPoints lineIdx nds lbs ds c).1.length = lbs.length ∧
      (processPoints lineIdx nds lbs ds c).2.1.length = ds.length := by
  induction nds with
  | nil => intro lbs ds c; simp [processPoints]
  | cons nd nds ih =>
    intro lbs ds c
    cases lbs with
    | nil => simp [processPoints]
    | cons lb lbs =>
      cases ds with
      | nil => simp [processPoints]
      | cons d ds =>
        by_cases h : ((nd : EReal) < d)
        · simp [processPoints, h, ih]
        · simp [processPoints, h, ih]

lemma processPoints_getD (lineIdx : ℤ) (nds : List ℝ) :
    ∀ (lbs : List ℤ) (ds : List EReal) (c : ℤ → ℤ) (i : ℕ),
      i < nds.length → i < lbs.length → i < ds.length →
      ((processPoints lineIdx nds lbs ds c).1.getD i 0
          = if (nds.getD i 0 : EReal) < ds.getD i 0 then lineIdx else lbs.getD i 0) ∧
      ((processPoints lineIdx nds lbs ds c).2.1.getD i 0
          = if (nds.getD i 0 : EReal) < ds.getD i 0 then ((nds.getD i 0 : ℝ) : EReal)
            else ds.getD i 0) := by
  induction nds with
  | nil => intro lbs ds c i h1 h2 h3; simp at h1
  | cons nd nds ih =>
    intro lbs ds c i h1 h2 h3
    cases lbs with
    | nil => simp at h2
    | cons lb lbs =>
      cases ds with
      | nil => simp at h3
      | cons d ds =>
        cases i with
        | zero =>
          by_cases h : ((nd : EReal) < d)
          · simp [processPoints, h]
          · simp [processPoints, h]
        | succ i =>
          simp only [List.length_cons, Nat.succ_lt_succ_iff] at h1 h2 h3
          by_cases h : ((nd : EReal) < d)
          · simpa [processPoints, h] using ih lbs ds _ i h1 h2 h3
          · simpa [processPoints, h] using ih lbs ds c i h1 h2 h3

lemma processPoints_labels_mem (lineIdx : ℤ) (nds : List ℝ) :
    ∀ (lbs : List ℤ) (ds : List EReal) (c : ℤ → ℤ),
      ∀ lb ∈ (processPoints lineIdx nds lbs ds c).1, lb = lineIdx ∨ lb ∈ lbs := by
  induction nds with
  | nil => intro lbs ds c lb hlb; right; simpa [processPoints] using hlb
  | cons nd nds ih =>
    intro lbs ds c lb hlb
    cases lbs with
    | nil => simp [processPoints] at hlb
    | cons lb0 lbs =>
      cases ds with
      | nil =>
        right
        simpa [processPoints] using hlb
      | cons d ds =>
        by_cases h : ((nd : EReal) < d)
        · simp only [processPoints, if_pos h, List.mem_cons] at hlb
          rcases hlb with rfl | hlb
          · left; rfl
          · rcases ih lbs ds _ lb hlb with h' | h'
            · left; exact h'
            · right; exact List.mem_cons_of_mem _ h'
        · simp only [processPoints, if_neg h, List.mem_cons] at hlb
          rcases hlb with rfl | hlb
          · right; exact List.mem_cons_self _ _
          · rcases ih lbs ds c lb hlb with h' | h'
            · left; exact h'
            · right; exact List.mem_cons_of_mem _ h'

lemma lineDists_getD (zs arclens : List ℝ) (rad theta : ℝ) (i : ℕ)
    (hz : i < zs.length) (ha : i < arclens.length) :
    (lineDists zs arclens rad theta).getD i 0
      = |houghLineFunc (zs.getD i 0) rad theta - arclens.getD i 0| := by
  have hzip : i < (zs.zip arclens).length := by
    rw [List.length_zip]
    omega
  rw [lineDists, List.getD_eq_getElem?_getD, List.getElem?_map,
    List.getElem?_eq_getElem hzip]
  simp [List.getElem_zip, List.getD_eq_getElem?_getD,
    List.getElem?_eq_getElem hz, List.getElem?_eq_getElem ha]

lemma lineDists_length (zs arclens : List ℝ) (rad theta : ℝ) :
    (lineDists zs arclens rad theta).length = min zs.length arclens.length := by
  simp [lineDists]

lemma runLines_length (theta : ℝ) (zs arclens : List ℝ) (rads : List ℝ) :
    ∀ (start : ℤ) (lbs : List ℤ) (ds : List EReal) (c : ℤ → ℤ),
      (runLines theta zs arclens rads start (lbs, ds, c)).1.length = lbs.length ∧
      (runLines theta zs arclens rads start (lbs, ds, c)).2.1.length = ds.length := by
  induction rads with
  | nil => intro start lbs ds c; simp [runLines]
  | cons rad rads ih =>
    intro start lbs ds c
    simp only [runLines]
    have hp := processPoints_length start (lineDists zs arclens rad theta) lbs ds c
    obtain ⟨e1, e2⟩ :=
      ih (start + 1) (processPoints start (lineDists zs arclens rad theta) lbs ds c).1
        (processPoints start (lineDists zs arclens rad theta) lbs ds c).2.1
        (processPoints start (lineDists zs arclens rad theta) lbs ds c).2.2
    constructor
    · rw [e1, hp.1]
    · rw [e2, hp.2]

lemma runLines_getD (theta : ℝ) (zs arclens : List ℝ) (rads : List ℝ) :
    ∀ (start : ℤ) (lbs : List ℤ) (ds : List EReal) (c : ℤ → ℤ) (i : ℕ),
      zs.length = lbs.length → arclens.length = lbs.length → ds.length = lbs.length →
      i < lbs.length →
      ((runLines theta zs arclens rads start (lbs, ds, c)).1.getD i 0 = lbs.getD i 0 ∧
        (runLines theta zs arclens rads start (lbs, ds, c)).2.1.getD i 0 = ds.getD i 0) ∨
      (∃ k : ℕ, k < rads.length ∧
        (runLines theta zs arclens rads start (lbs, ds, c)).1.getD i 0 = start + (k : ℤ) ∧
        (runLines theta zs arclens rads start (lbs, ds, c)).2.1.getD i 0
          = ((|houghLineFunc (zs.getD i 0) (rads.getD k 0) theta - arclens.getD i 0| : ℝ) : EReal)) := by
  induction rads with
  | nil =>
    intro start lbs ds c i hz ha hd hi
    left
    simp [runLines]
  | cons rad rads ih =>
    intro start lbs ds c i hz ha hd hi
    simp only [runLines]
    set st := processPoints start (lineDists zs arclens rad theta) lbs ds c with hst
    have hlen := processPoints_length start (lineDists zs arclens rad theta) lbs ds c
    have hnd : i < (lineDists zs arclens rad theta).length := by
      rw [lineDists_length]
      omega
    have hchar := processPoints_getD start (lineDists zs arclens rad theta) lbs ds c i
      hnd hi (by omega)
    have hih := ih (start + 1) st.1 st.2.1 st.2.2 i
      (by rw [hlen.1]; exact hz) (by rw [hlen.1]; exact ha)
      (by rw [hlen.2, hlen.1]; omega) (by rw [hlen.1]; exact hi)
    have hmk : (st.1, st.2.1, st.2.2) = st := rfl
    rw [hmk] at hih
    rcases hih with ⟨hl, hr⟩ | ⟨k, hk, hl, hr⟩
    · rw [hl, hr, hchar.1, hchar.2]
      by_cases h : ((lineDists zs arclens rad theta).getD i 0 : EReal) < ds.getD i 0
      · right
        refine ⟨0, by simp, ?_, ?_⟩
        · rw [if_pos h]
          simp
        · rw [if_pos h, lineDists_getD zs arclens rad theta i (by omega) (by omega)]
          simp
      · left
        rw [if_neg h, if_neg h]
        exact ⟨rfl, rfl⟩
    · right
      refine ⟨k + 1, by simpa using hk, ?_, ?_⟩
      · rw [hl]
        push_cast
        ring
      · rw [hr]
        simp

lemma classifyLoop_getD (xyz : List (ℝ × ℝ × ℝ)) (arclens : List ℝ)
    (maxAngle : ℝ) (radii : List ℝ) (hlen : arclens.length = xyz.length)
    (i : ℕ) (hi : i < xyz.length) :
    ((classifyLoop xyz arclens maxAngle radii).1.getD i 0 = -1 ∧
      (classifyLoop xyz arclens maxAngle radii).2.1.getD i 0 = ⊤) ∨
    (∃ k : ℕ, k < radii.length ∧
      (classifyLoop xyz arclens maxAngle radii).1.getD i 0 = (k : ℤ) ∧
      (classifyLoop xyz arclens maxAngle radii).2.1.getD i 0
        = ((|houghLineFunc (xyz.getD i (0, 0, 0)).2.2 (radii.getD k 0) maxAngle
            - arclens.getD i 0| : ℝ) : EReal)) := by
  have hzl : (xyz.map (fun p => p.2.2)).length = (List.replicate xyz.length (-1 : ℤ)).length := by
    simp
  have hz : (xyz.map (fun p => p.2.2)).getD i 0 = (xyz.getD i (0, 0, 0)).2.2 := by
    rw [List.getD_eq_getElem?_getD, List.getElem?_map, List.getElem?_eq_getElem hi,
      List.getD_eq_getElem?_getD, List.getElem?_eq_getElem hi]
    simp
  have h := runLines_getD maxAngle (xyz.map (fun p => p.2.2)) arclens radii 0
    (List.replicate xyz.length (-1 : ℤ)) (List.replicate xyz.length (⊤ : EReal))
    (fun _ => 0) i (by simp) (by simp [hlen]) (by simp) (by simp [hi])
  have hrepl1 : (List.replicate xyz.length (-1 : ℤ)).getD i 0 = -1 := by
    rw [List.getD_eq_getElem?_getD, List.getElem?_eq_getElem (by simpa using hi)]
    simp
  have hrepl2 : (List.replicate xyz.length (⊤ : EReal)).getD i 0 = ⊤ := by
    rw [List.getD_eq_getElem?_getD, List.getElem?_eq_getElem (by simpa using hi)]
    simp
  rw [hrepl1, hrepl2, hz] at h
  rcases h with ⟨h1, h2⟩ | ⟨k, hk, h1, h2⟩
  · left
    exact ⟨h1, h2⟩
  · right
    refine ⟨k, hk, by simpa using h1, h2⟩

/-- C1 amended: if `sin maxAngle ≠ 0`, then at the end of the line-processing
loop (before elimination) every point with a label other than `-1` carries a
label `k` that indexes the radii list, and its stored distance is the finite
value `|houghLineFunc(z, radii[k], maxAngle) - arclen|` — the absolute
difference between the point's arc length and the arc length that satisfies
the Hough line equation `depth·cos(angle) + arcLength·sin(angle) = radius` at
the point's depth (the perpendicular distance divided by `|sin maxAngle|`).
After elimination this can fail, because eliminating a line with at least one
point overwrites every point's distance with `+inf`. -/
theorem classifyLoop_assigned_distance_eq_line_distance
    (xyz : List (ℝ × ℝ × ℝ)) (arclens : List ℝ) (maxAngle : ℝ) (radii : List ℝ)
    (hsin : Real.sin maxAngle ≠ 0) (hlen : arclens.length = xyz.length)
    (i : ℕ) (hi : i < xyz.length)
    (hne : (classifyLoop xyz arclens maxAngle radii).1.getD i 0 ≠ -1) :
    ∃ k : ℕ, k < radii.length ∧
      (classifyLoop xyz arclens maxAngle radii).1.getD i 0 = (k : ℤ) ∧
      (classifyLoop xyz arclens maxAngle radii).2.1.getD i 0
        = ((|houghLineFunc (xyz.getD i (0, 0, 0)).2.2 (radii.getD k 0) maxAngle
            - arclens.getD i 0| : ℝ) : EReal) ∧
      (xyz.getD i (0, 0, 0)).2.2 * Real.cos maxAngle
          + houghLineFunc (xyz.getD i (0, 0, 0)).2.2 (radii.getD k 0) maxAngle
            * Real.sin maxAngle
        = radii.getD k 0 := by
  rcases classifyLoop_getD xyz arclens maxAngle radii hlen i hi with ⟨h1, _⟩ | ⟨k, hk, h1, h2⟩
  · exact absurd h1 hne
  · refine ⟨k, hk, h1, h2, ?_⟩
    rw [houghLineFunc, div_mul_cancel₀ _ hsin]
    ring

/-- C1 amended, witnessed: one point at the origin with arc length `0`, one
line of radius `0`, `maxAngle = π/2`; the point is assigned to line `0`. -/
theorem classifyLoop_assigned_distance_eq_line_distance_witness :
    Real.sin (Real.pi/2) ≠ 0 ∧
    ([0] : List ℝ).length = ([((0:ℝ), (0:ℝ), (0:ℝ))] : List (ℝ × ℝ × ℝ)).length ∧
    0 < ([((0:ℝ), (0:ℝ), (0:ℝ))] : List (ℝ × ℝ × ℝ)).length ∧
    (classifyLoop [(0, 0, 0)] [0] (Real.pi/2) [0]).1.getD 0 0 ≠ -1 ∧
    (∃ k : ℕ, k < ([0] : List ℝ).length ∧
      (classifyLoop [(0, 0, 0)] [0] (Real.pi/2) [0]).1.getD 0 0 = (k : ℤ) ∧
      (classifyLoop [(0, 0, 0)] [0] (Real.pi/2) [0]).2.1.getD 0 0
        = ((|houghLineFunc (([((0:ℝ), (0:ℝ), (0:ℝ))] : List (ℝ × ℝ × ℝ)).getD 0 (0, 0, 0)).2.2
              (([0] : List ℝ).getD k 0) (Real.pi/2)
            - ([0] : List ℝ).getD 0 0| : ℝ) : EReal) ∧
      (([((0:ℝ), (0:ℝ), (0:ℝ))] : List (ℝ × ℝ × ℝ)).getD 0 (0, 0, 0)).2.2 * Real.cos (Real.pi/2)
          + houghLineFunc (([((0:ℝ), (0:ℝ), (0:ℝ))] : List (ℝ × ℝ × ℝ)).getD 0 (0, 0, 0)).2.2
              (([0] : List ℝ).getD k 0) (Real.pi/2) * Real.sin (Real.pi/2)
        = ([0] : List ℝ).getD k 0) := by
  have hsin : Real.sin (Real.pi/2) ≠ 0 := by
    rw [Real.sin_pi_div_two]
    norm_num
  have hne : (classifyLoop [(0, 0, 0)] [0] (Real.pi/2) [0]).1.getD 0 0 ≠ -1 := by
    have hl : (classifyLoop [((0:ℝ), (0:ℝ), (0:ℝ))] [0] (Real.pi/2) [0]).1 = [0] := by
      norm_num [classifyLoop, runLines, processPoints, lineDists, houghLineFunc,
        Real.cos_pi_div_two, Real.sin_pi_div_two, EReal.coe_lt_top, abs_of_nonneg,
        List.replicate_succ]
    rw [hl]
    norm_num
  exact ⟨hsin, rfl, by norm_num, hne,
    classifyLoop_assigned_distance_eq_line_distance [(0, 0, 0)] [0] (Real.pi/2) [0]
      hsin rfl 0 (by norm_num) hne⟩

lemma runLines_labels_mem (theta : ℝ) (zs arclens : List ℝ) (rads : List ℝ) :
    ∀ (start : ℤ) (lbs : List ℤ) (ds : List EReal) (c : ℤ → ℤ),
      ∀ lb ∈ (runLines theta zs arclens rads start (lbs, ds, c)).1,
        lb ∈ lbs ∨ (start ≤ lb ∧ lb < start + (rads.length : ℤ)) := by
  induction rads with
  | nil =>
    intro start lbs ds c lb hlb
    left
    simpa [runLines] using hlb
  | cons rad rads ih =>
    intro start lbs ds c lb hlb
    simp only [runLines] at hlb
    set st := processPoints start (lineDists zs arclens rad theta) lbs ds c with hst
    have hmk : (st.1, st.2.1, st.2.2) = st := rfl
    rw [← hmk] at hlb
    rcases ih (start + 1) st.1 st.2.1 st.2.2 lb hlb with h | h
    · rcases processPoints_labels_mem start (lineDists zs arclens rad theta) lbs ds c lb h
        with rfl | h'
      · right
        constructor
        · omega
        · have : (0 : ℤ) < (rads.length : ℤ) + 1 := by positivity
          simp only [List.length_cons]
          push_cast
          omega
      · left
        exact h'
    · right
      simp only [List.length_cons]
      push_cast
      omega

lemma foldl_preserves {α β : Type} (P : β → Prop) (f : β → α → β)
    (hf : ∀ b a, P b → P (f b a)) : ∀ (l : List α) (b : β), P b → P (l.foldl f b) := by
  intro l
  induction l with
  | nil => intro b hb; exact hb
  | cons a l ih => intro b hb; exact ih (f b a) (hf b a hb)

lemma eliminateLines_labels_mem (minPts : ℤ) (c : ℤ → ℤ) (numLines numPts : ℕ)
    (labels : List ℤ) (dists : List EReal) :
    ∀ lb ∈ (eliminateLines minPts c numLines numPts labels dists).1,
      lb = -1 ∨ lb ∈ labels := by
  rw [eliminateLines]
  refine foldl_preserves (fun st => ∀ lb ∈ st.1, lb = -1 ∨ lb ∈ labels) _ ?_
    (List.range numLines) (labels, dists) ?_
  · intro st ℓ hst
    by_cases h : c (ℓ : ℤ) < minPts
    · simp only [if_pos h]
      refine foldl_preserves (fun st => ∀ lb ∈ st.1, lb = -1 ∨ lb ∈ labels) _ ?_
        (List.range numPts) st hst
      intro st' i hst' lb hlb
      rw [elimStep] at hlb
      by_cases h' : st'.1.getD i 0 = (ℓ : ℤ)
      · rw [if_pos h'] at hlb
        rcases List.mem_or_eq_of_mem_set hlb with hmem | rfl
        · exact hst' lb hmem
        · left
          rfl
      · rw [if_neg h'] at hlb
        exact hst' lb hlb
    · simp only [if_neg h]
      exact hst
  · intro lb hlb
    right
    exact hlb

/-- C7: every label produced by `classifyPoints` is either the unassigned
sentinel `-1` or an index into the candidate radii list, both at the end of
the line-processing loop and after elimination. -/
theorem classify_labels_in_range (minPts : ℤ) (xyz : List (ℝ × ℝ × ℝ))
    (arclens : List ℝ) (maxAngle : ℝ) (radii : List ℝ) :
    (∀ lb ∈ (classifyLoop xyz arclens maxAngle radii).1,
        lb = -1 ∨ (0 ≤ lb ∧ lb < (radii.length : ℤ))) ∧
    (∀ lb ∈ (classifyPoints minPts xyz arclens maxAngle radii).labels,
        lb = -1 ∨ (0 ≤ lb ∧ lb < (radii.length : ℤ))) := by
  have hloop : ∀ lb ∈ (classifyLoop xyz arclens maxAngle radii).1,
      lb = -1 ∨ (0 ≤ lb ∧ lb < (radii.length : ℤ)) := by
    intro lb hlb
    rw [classifyLoop] at hlb
    rcases runLines_labels_mem maxAngle (xyz.map (fun p => p.2.2)) arclens radii 0
      (List.replicate xyz.length (-1)) (List.replicate xyz.length ⊤) (fun _ => 0) lb hlb
      with h | h
    · left
      exact List.eq_of_mem_replicate h
    · right
      omega
  refine ⟨hloop, ?_⟩
  intro lb hlb
  rw [classifyPoints] at hlb
  rcases eliminateLines_labels_mem minPts
    (classifyLoop xyz arclens maxAngle radii).2.2 radii.length xyz.length
    (classifyLoop xyz arclens maxAngle radii).1
    (classifyLoop xyz arclens maxAngle radii).2.1 lb hlb with h | h
  · left
    exact h
  · exact hloop lb h

/-- C7, witnessed: the single produced label `0` on a one-point, one-line
input is in range. -/
theorem classify_labels_in_range_witness :
    (0 : ℤ) ∈ (classifyLoop [((0:ℝ), (0:ℝ), (0:ℝ))] [0] (Real.pi/2) [0]).1 ∧
    ((0 : ℤ) = -1 ∨ (0 ≤ (0 : ℤ) ∧ (0 : ℤ) < (([0] : List ℝ).length : ℤ))) := by
  have hl : (classifyLoop [((0:ℝ), (0:ℝ), (0:ℝ))] [0] (Real.pi/2) [0]).1 = [0] := by
    norm_num [classifyLoop, runLines, processPoints, lineDists, houghLineFunc,
      Real.cos_pi_div_two, Real.sin_pi_div_two, EReal.coe_lt_top, abs_of_nonneg,
      List.replicate_succ]
  have hmem : (0 : ℤ) ∈ (classifyLoop [((0:ℝ), (0:ℝ), (0:ℝ))] [0] (Real.pi/2) [0]).1 := by
    rw [hl]
    exact List.mem_singleton.mpr rfl
  exact ⟨hmem,
    (classify_labels_in_range 1 [(0, 0, 0)] [0] (Real.pi/2) [0]).1 0 hmem⟩
